import Mathlib

/-!
Verification of the recipe-extraction pipeline
(`recipe_import_universal_v1.1.py`, universal variant, and
`recipe_parse_export_v3_13_forceocr.py`, publication-specific variant)
against its natural-language specification.

Text is modelled as `List Char` (Unicode code points, matching Python
`str`).  Rational numbers (`ℚ`) stand in for Python floats: every
numeric claim checked here is insensitive to binary rounding.
-/

set_option maxHeartbeats 1000000

abbrev Str := List Char

/-- Python `str.isspace` / regex `\s` character class (the CPython
whitespace set, which also drives `str.strip()` and `str.split()`). -/
def pyWS (c : Char) : Bool :=
  c.val = 9 ∨ c.val = 10 ∨ c.val = 11 ∨ c.val = 12 ∨ c.val = 13 ∨
  (28 ≤ c.val ∧ c.val ≤ 31) ∨ c.val = 32 ∨ c.val = 133 ∨ c.val = 160 ∨
  c.val = 0x1680 ∨ (0x2000 ≤ c.val ∧ c.val ≤ 0x200A) ∨ c.val = 0x2028 ∨
  c.val = 0x2029 ∨ c.val = 0x202F ∨ c.val = 0x205F ∨ c.val = 0x3000

/-- Python `str.splitlines` line-terminator set. -/
def pyLB (c : Char) : Bool :=
  c.val = 10 ∨ c.val = 11 ∨ c.val = 12 ∨ c.val = 13 ∨ c.val = 28 ∨
  c.val = 29 ∨ c.val = 30 ∨ c.val = 133 ∨ c.val = 0x2028 ∨ c.val = 0x2029

/-- Python `str.replace(pat, rep)`: left-to-right, non-overlapping
replacement of every occurrence of `pat` (all call sites in the source
pass a non-empty `pat`, so the empty-pattern corner of Python's
semantics is irrelevant and the empty pattern is treated as a no-op). -/
def replaceAll (pat rep : Str) : Str → Str
  | [] => []
  | c :: cs =>
    if pat ≠ [] ∧ pat.isPrefixOf (c :: cs) then
      rep ++ replaceAll pat rep ((c :: cs).drop pat.length)
    else
      c :: replaceAll pat rep cs
termination_by s => s.length
decreasing_by
  · simp only [List.length_drop, List.length_cons]
    have hp : 1 ≤ pat.length := List.length_pos.mpr (by tauto)
    omega
  · simp only [List.length_cons]; omega

/-- Sequential application of a replacement table
(`for bad, good in table.items(): txt = txt.replace(bad, good)`). -/
def applyTable (tbl : List (Str × Str)) (s : Str) : Str :=
  tbl.foldl (fun t p => replaceAll p.1 p.2 t) s

/-- Python `re.sub(r"\s{2,}", " ", s)`: every maximal run of two or
more whitespace characters becomes a single space; isolated whitespace
characters are kept as they are. -/
def collapseWS : Str → Str
  | [] => []
  | [c] => [c]
  | c :: d :: rest =>
    if pyWS c ∧ pyWS d then
      ' ' :: collapseWS (rest.dropWhile pyWS)
    else
      c :: collapseWS (d :: rest)
termination_by s => s.length
decreasing_by
  · have := (List.dropWhile_sublist (l := rest) pyWS).length_le
    simp only [List.length_cons] at *
    omega
  · simp only [List.length_cons]; omega

/-- Python `str.strip()`: drop leading and trailing whitespace. -/
def pyStrip (s : Str) : Str :=
  ((s.dropWhile pyWS).reverse.dropWhile pyWS).reverse

/-- Python `str.strip(chars)`: drop leading and trailing characters
belonging to the set `chs`. -/
def stripChars (chs : Str) (s : Str) : Str :=
  ((s.dropWhile (· ∈ chs)).reverse.dropWhile (· ∈ chs)).reverse

/-- Worker of `pySplitlines`, carrying the current (reversed) line:
a line is emitted at every terminator, and the pending line is emitted
at the end only when non-empty (so a trailing terminator adds no empty
final line, as in Python). -/
def splitlinesGo (acc : Str) : Str → List Str
  | [] => if acc = [] then [] else [acc.reverse]
  | '\r' :: '\n' :: cs => acc.reverse :: splitlinesGo [] cs
  | c :: cs =>
    if pyLB c then acc.reverse :: splitlinesGo [] cs
    else splitlinesGo (c :: acc) cs

/-- Python `str.splitlines()` (without keepends): `"a\n".splitlines()
= ["a"]`, `"".splitlines() = []`, `\r\n` counts as one terminator. -/
def pySplitlines (s : Str) : List Str := splitlinesGo [] s

/-- Python `str.split()` (no separator): split on runs of whitespace,
ignoring leading and trailing whitespace. -/
def pySplitWS : Str → List Str
  | [] => []
  | c :: cs =>
    if pyWS c then pySplitWS cs
    else
      (c :: cs.takeWhile (fun x => ¬ pyWS x)) ::
        pySplitWS (cs.dropWhile (fun x => ¬ pyWS x))
termination_by s => s.length
decreasing_by
  · simp only [List.length_cons]; omega
  · have h1 := (List.dropWhile_sublist (l := cs) (fun x => ¬ pyWS x)).length_le
    simp only [List.length_cons]
    omega

/-- Python substring test `pat in s`. -/
def containsSubstr (pat s : Str) : Bool :=
  (List.range (s.length + 1)).any (fun i => pat.isPrefixOf (s.drop i))

/-- ASCII lower-casing; all regex/`.lower()` call sites in the source
receive ASCII-normalized text, so the Unicode cases are unreachable. -/
def asciiLower (c : Char) : Char :=
  if 'A' ≤ c ∧ c ≤ 'Z' then Char.ofNat (c.toNat + 32) else c

/-- Case-insensitive prefix match against an ASCII-lowercase pattern,
returning the rest of the string after the prefix (regex `(?i)` prefix
matching). -/
def dropPrefixCI : Str → Str → Option Str
  | [], l => some l
  | _ :: _, [] => none
  | p :: ps, c :: cs => if asciiLower c = p then dropPrefixCI ps cs else none

/-- Lexicographic comparison of strings by code point (Python `<` on
`str`, as used by `sorted`). -/
def strLtB : Str → Str → Bool
  | [], [] => false
  | [], _ :: _ => true
  | _ :: _, [] => false
  | a :: as_, b :: bs => if a.val < b.val then true
      else if b.val < a.val then false else strLtB as_ bs

/-- Insertion step of an ascending stable sort (Python `sorted`). -/
def insertSortedStr (x : Str) : List Str → List Str
  | [] => [x]
  | y :: ys => if strLtB y x then y :: insertSortedStr x ys else x :: y :: ys

/-- Python `sorted` on a list of strings. -/
def sortStr (l : List Str) : List Str := l.foldr insertSortedStr []

/-- Insertion step of an ascending sort on rationals. -/
def insertSortedQ (x : ℚ) : List ℚ → List ℚ
  | [] => [x]
  | y :: ys => if y < x then y :: insertSortedQ x ys else x :: y :: ys

/-- Python `sorted` on (distinct) float keys, modelled on `ℚ`. -/
def sortQ (l : List ℚ) : List ℚ := l.foldr insertSortedQ []

/-- Python `round(x, 0)`: round half to even (banker's rounding). -/
def pyRound (x : ℚ) : ℚ :=
  let n : ℤ := ⌊x⌋
  if x - n < mkRat 1 2 then (n : ℚ)
  else if mkRat 1 2 < x - n then ((n + 1 : ℤ) : ℚ)
  else if n % 2 = 0 then (n : ℚ) else ((n + 1 : ℤ) : ℚ)

namespace Universal

/-- `CONF_THRESHOLD = 0.45` (acceptance threshold of the universal
variant). -/
def CONF_THRESHOLD : ℚ := 0.45

/-- `USE_OCR_FALLBACK = True`. -/
def USE_OCR_FALLBACK : Bool := true

/-- `MAX_PAGES = 50`. -/
def MAX_PAGES : Nat := 50

/-- The `replacements` mojibake table of the universal
`clean_utf8_text`, in source (dict-insertion) order. -/
def replacements : List (Str × Str) :=
  [("¬Ω".toList, "1/2".toList),
   ("¬æ".toList, "3/4".toList),
   ("¬º".toList, "1/8".toList),
   ("¬½".toList, "1/4".toList),
   ("‚Ä¢".toList, "".toList),
   ("‚Äôs".toList, "’s".toList),
   ("‚Äì".toList, "-".toList),
   ("â€“".toList, "-".toList),
   ("â€”".toList, "—".toList),
   ("â€˜".toList, "‘".toList),
   ("â€™".toList, "’".toList),
   ("â€œ".toList, "“".toList),
   ("â€\u009D".toList, "”".toList),
   ("Ã©".toList, "é".toList),
   ("Ã¼".toList, "ü".toList),
   ("Ã".toList, "à".toList),
   ("Â".toList, "".toList),
   ("‚Öì".toList, "1/3".toList),
   ("‚Öî".toList, "1/3".toList)]

/-- `txt.encode("ascii", "replace").decode("ascii")`: every character
above code point 127 becomes `?`. -/
def toAscii (s : Str) : Str :=
  s.map (fun c => if c.val ≤ 127 then c else '?')

/-- The ASCII projection followed by `txt.replace("?", "[unk]")`. -/
def unkStep (s : Str) : Str :=
  replaceAll ['?'] "[unk]".toList (toAscii s)

/-- `clean_utf8_text` of the universal variant: mojibake table, ASCII
projection with `[unk]` markers, whitespace collapse, bullet strip,
trim. -/
def clean_utf8_text (txt : Str) : Str :=
  pyStrip (replaceAll ['•'] [] (collapseWS (unkStep (applyTable replacements txt))))

/-- `text_is_garbled`: short after strip, or alphabetic density below
0.2.  (`isalpha` is modelled on the ASCII range: every call site passes
`clean_utf8_text` output, which is pure ASCII.) -/
def text_is_garbled (txt : Str) : Bool :=
  if (pyStrip txt).length < 40 then true
  else decide (((txt.filter Char.isAlpha).length : ℚ) / (max txt.length 1 : ℕ) < 0.2)

/-- One positioned word of a pdfplumber page (`extract_words()`
entry): its text and left edge `x0`. -/
structure Word where
  text : Str
  x0 : ℚ
deriving DecidableEq

/-- One page of the universal pipeline.  `fullText` is the value of
`page.extract_text() or ""` (empty when the page has no text layer);
`ocr` is the outcome of `pytesseract.image_to_string` on the rendered
page, with `none` modelling a raised exception. -/
structure Page where
  width : ℚ
  words : List Word
  fullText : Str
  ocr : Option Str

/-- `extract_text_zones`: split words at the page midpoint into left
and right columns, joined by newlines. -/
def extract_text_zones (p : Page) : Str × Str :=
  if p.words = [] then ([], [])
  else
    (List.intercalate ['\n'] ((p.words.filter (fun w => w.x0 < p.width / 2)).map Word.text),
     List.intercalate ['\n'] ((p.words.filter (fun w => p.width / 2 ≤ w.x0)).map Word.text))

/-- `extract_best_text`: zone text, full-page fallback when empty or
garbled, then OCR fallback with a confidence score.  `useOcr` is the
`USE_OCR_FALLBACK` switch. -/
def extract_best_text (useOcr : Bool) (p : Page) : Str × ℚ :=
  let lr := extract_text_zones p
  let merged0 := clean_utf8_text (lr.1 ++ '\n' :: lr.2)
  let merged1 := if merged0 = [] ∨ text_is_garbled merged0
    then clean_utf8_text p.fullText else merged0
  let conf1 : ℚ := if text_is_garbled merged1 then 0.5 - 0.2 else 0.5
  let step :=
    if useOcr ∧ (merged1 = [] ∨ conf1 < 0.4) then
      match p.ocr with
      | none => (merged1, conf1)
      | some ocr =>
        if merged1.length < ocr.length then (clean_utf8_text ocr, conf1 + 0.3)
        else (merged1, conf1)
    else (merged1, conf1)
  (pyStrip step.1, min (max step.2 0) 1)

/-- Regex `(?i)^ingredients?[:\s]` applied with `re.match`. -/
def matchIngHeader (l : Str) : Bool :=
  match dropPrefixCI "ingredient".toList l with
  | none => false
  | some rest =>
    (match rest with
     | c :: rest2 => (asciiLower c = 's' ∧ headColonWS rest2) ∨ headColonWS rest
     | [] => false)
where
  /-- One character of the class `[:\s]`. -/
  headColonWS : Str → Bool
  | [] => false
  | c :: _ => c = ':' ∨ pyWS c

/-- Regex `(?i)^(directions?|instructions?)[:\s]` applied with
`re.match`. -/
def matchDirHeader (l : Str) : Bool :=
  matchOne "direction".toList l ∨ matchOne "instruction".toList l
where
  matchOne (stem : Str) (l : Str) : Bool :=
    match dropPrefixCI stem l with
    | none => false
    | some rest =>
      (match rest with
       | c :: rest2 => (asciiLower c = 's' ∧ matchIngHeader.headColonWS rest2) ∨
           matchIngHeader.headColonWS rest
       | [] => false)

/-- The keyword lexicon of `detect_tags`, in source order. -/
def tagKeywords : List Str :=
  ["thai", "chinese", "vietnamese", "italian", "mexican", "indian",
   "soup", "stew", "stir-fry", "noodle", "pasta", "chicken", "beef",
   "pork", "vegan", "vegetarian", "dessert", "bake", "grill",
   "roast"].map String.toList

/-- `detect_tags` with the optional spaCy capability absent
(`nlp = None`, the import-failure branch of the source): lexicon
matches against the lower-cased text, reported sorted. -/
def detect_tags (text : Str) : List Str :=
  sortStr (tagKeywords.filter (fun k => containsSubstr k (text.map asciiLower)))

/-- A parsed recipe record of the universal variant. -/
structure Recipe where
  title : Str
  description : Str
  ingredients : List Str
  directions : Str
  tags : List Str
  confidence : ℚ
  source_file : Str
  page : Nat

/-- `parse_recipe_text` (single-stream heuristic parser).  The Python
truthiness tests `if ing_idx:` / `if dir_idx:` are false both for
`None` and for index `0`, which the embedding reproduces exactly. -/
def parse_recipe_text (txt : Str) (filename : Str) (page_num : Nat) : Recipe :=
  let lines := ((pySplitlines txt).map pyStrip).filter (fun l => l ≠ [])
  let ing_idx := lines.findIdx? matchIngHeader
  let dir_idx := lines.findIdx? matchDirHeader
  let cond1 := ing_idx.elim false (fun i => i ≠ 0 ∧ i < 5)
  let title :=
    if cond1 then lines.headD []
    else if 1 < lines.length then lines.headD []
    else "Untitled Recipe".toList
  let description :=
    if cond1 then []
    else if 1 < lines.length then List.intercalate [' '] ((lines.drop 1).take 2)
    else []
  let ingredients0 :=
    match ing_idx with
    | some i =>
      if i ≠ 0 then
        let e := match dir_idx with
          | some d => if d ≠ 0 then d else lines.length
          | none => lines.length
        ((lines.drop (i + 1)).take (e - (i + 1))).map clean_utf8_text
      else []
    | none => []
  let directions :=
    match dir_idx with
    | some d => if d ≠ 0 then List.intercalate [' '] (lines.drop (d + 1)) else []
    | none => []
  let ingredients :=
    if ingredients0 = [] ∧ 4 < lines.length then (lines.drop 1).take 4
    else ingredients0
  { title := title, description := description, ingredients := ingredients,
    directions := directions, tags := detect_tags (List.intercalate [' '] lines),
    confidence := 0, source_file := filename, page := page_num }

/-- The per-page body of the universal `main` loop: extract text,
skip the page when the stripped text is empty, otherwise parse it and
attach the confidence.  `pageIdx` is the 0-based page index. -/
def processPage (p : Page) (fname : Str) (pageIdx : Nat) : Option Recipe :=
  let tc := extract_best_text USE_OCR_FALLBACK p
  if pyStrip tc.1 = [] then none
  else some { parse_recipe_text tc.1 fname (pageIdx + 1) with confidence := tc.2 }

/-- All records the `main` loop builds for a document (one per page
with non-empty extracted text, before the acceptance test). -/
def produced_records (doc : List Page) (fname : Str) : List Recipe :=
  ((doc.take MAX_PAGES).enum).filterMap (fun ip => processPage ip.2 fname ip.1)

/-- The `recipes` list accumulated by `main`: a record is appended
only when `conf >= CONF_THRESHOLD`. -/
def main_recipes (doc : List Page) (fname : Str) : List Recipe :=
  ((doc.take MAX_PAGES).enum).filterMap (fun ip =>
    match processPage ip.2 fname ip.1 with
    | none => none
    | some r => if CONF_THRESHOLD ≤ r.confidence then some r else none)

/-- `export_review`: the rows written to `recipes_review.csv` — the
entries of its argument (the `recipes` list of `main`) whose
confidence is below the threshold. -/
def export_review (recipes : List Recipe) : List Recipe :=
  recipes.filter (fun r => r.confidence < CONF_THRESHOLD)

end Universal

namespace V3

/-- `START_PAGE = 6`. -/
def START_PAGE : Nat := 6

/-- `GARBLED_THRESHOLD = 0.25`. -/
def GARBLED_THRESHOLD : ℚ := 0.25

/-- The `fixes` mojibake table of the specialized `clean_utf8_text`,
in source (dict-insertion) order; the keys/values are the exact code
points of the source file. -/
def fixes : List (Str × Str) :=
  [("Ã¢â‚¬â„¢".toList, "â€™".toList),
   ("Ã¢â‚¬Å“".toList, "â€œ".toList),
   ("Ã¢â‚¬Â".toList, "â€".toList),
   ("Ã¢â‚¬â€œ".toList, "-".toList),
   ("Ã¢â‚¬â€".toList, "â€“".toList),
   ("Ã‚Â½".toList, "Â½".toList),
   ("Ã‚Â¼".toList, "Â¼".toList),
   ("Ã‚Â¾".toList, "Â¾".toList),
   ("Ã‚Âº".toList, "Âº".toList),
   ("Ã‚Â°".toList, "Â°".toList),
   ("ÃƒÂ©".toList, "Ã©".toList),
   ("ÃƒÂ¨".toList, "Ã¨".toList),
   ("ÃƒÂ¢".toList, "Ã¢".toList),
   ("ÃƒÂ®".toList, "Ã®".toList),
   ("ÃƒÂ´".toList, "Ã´".toList),
   ("ÃƒÂ¶".toList, "Ã¶".toList),
   ("ÃƒÂ¼".toList, "Ã¼".toList),
   ("Ãƒ".toList, "Ã ".toList),
   ("Ã‚".toList, "".toList),
   ("â€šÃ„Â¢".toList, "â€¢".toList),
   ("â€šÃ„Ã´s".toList, "â€™s".toList),
   ("â€šÃ„Ã¬".toList, "-".toList),
   ("Â¬Î©".toList, "1/2".toList),
   ("â€šÃ–Ã®".toList, "1/3".toList),
   ("Â¬Ã¦".toList, "3/4".toList),
   ("Â¬Âº".toList, "1/8".toList)]

/-- The extra characters (beyond printable ASCII 32–126) that the
specialized cleaner keeps: `"\n\r\t"` plus the literal characters of
the source string. -/
def allowedExtra : Str :=
  "\n\r\tâ€“â€”â€™â€¢".toList

/-- The character-by-character filter
`''.join(ch if 32 <= ord(ch) <= 126 or ch in ALLOWED else "[unk]" for ch in txt)`. -/
def charFilter (s : Str) : Str :=
  s.flatMap (fun c =>
    if (32 ≤ c.val ∧ c.val ≤ 126) ∨ c ∈ allowedExtra then [c] else "[unk]".toList)

/-- `clean_utf8_text` of the specialized variant: mojibake table,
character filter with `[unk]` markers, whitespace collapse, trim. -/
def clean_utf8_text (txt : Str) : Str :=
  pyStrip (collapseWS (charFilter (applyTable fixes txt)))

/-- The per-character corruption test of `text_garble_score`:
`ch not in "\n\r\t" and (ord(ch) > 126 or ord(ch) < 9)`. -/
def weirdChar (c : Char) : Bool :=
  ¬ (c.val = 10 ∨ c.val = 13 ∨ c.val = 9) ∧ (126 < c.val ∨ c.val < 9)

/-- `text_garble_score`: 1.0 for empty/whitespace-only input,
otherwise the fraction of corrupted characters. -/
def text_garble_score (txt : Str) : ℚ :=
  if pyStrip txt = [] then 1
  else ((txt.filter weirdChar).length : ℚ) / ((max 1 txt.length : ℕ) : ℚ)

/-- One positioned word of a pdfplumber page: text, left edge `x0`,
vertical position `top`. -/
structure V3Word where
  text : Str
  x0 : ℚ
  top : ℚ
deriving DecidableEq

/-- One page of the specialized pipeline; `ocr` is the outcome of the
recognition call, with `none` modelling a raised exception. -/
structure V3Page where
  words : List V3Word
  ocr : Option Str

/-- `join_column`: group words into lines by `round(top, 0)`, join
each line with spaces in word order, and emit the lines in ascending
key order joined by newlines. -/
def join_column (ws : List V3Word) : Str :=
  let keys := sortQ ((ws.map (fun w => pyRound w.top)).dedup)
  List.intercalate ['\n'] (keys.map (fun k =>
    List.intercalate [' '] ((ws.filter (fun w => pyRound w.top = k)).map V3Word.text)))

/-- `extract_columns_from_page`: split at the fixed 280-pixel column
boundary (`LEFT_COLUMN_XMAX = RIGHT_COLUMN_XMIN = 280`). -/
def extract_columns_from_page (p : V3Page) : Str × Str :=
  if p.words = [] then ([], [])
  else
    (join_column (p.words.filter (fun w => w.x0 < 280)),
     join_column (p.words.filter (fun w => (280 : ℚ) ≤ w.x0)))

/-- `split_ocr_text`: naive half split of OCR output lines. -/
def split_ocr_text (txt : Str) : Str × Str :=
  let lines := pySplitlines txt
  let mid := lines.length / 2
  (List.intercalate ['\n'] (lines.take mid), List.intercalate ['\n'] (lines.drop mid))

/-- The loop body of `extract_text_from_pdf` for one selected page:
column extraction, garble scoring, optional OCR (skipped when
`pytesseract` is absent, modelled by `tess = false`; a raised OCR
error, `ocr = none`, leaves the column text unchanged), and final
cleaning. -/
def processPage (tess force : Bool) (p : V3Page) : Str × Str :=
  let lr0 := extract_columns_from_page p
  let combined := clean_utf8_text (lr0.1 ++ lr0.2)
  let g := text_garble_score combined
  let lr1 :=
    if tess ∧ (force ∨ GARBLED_THRESHOLD < g) then
      match p.ocr with
      | none => lr0
      | some t => split_ocr_text t
    else lr0
  (clean_utf8_text lr1.1, clean_utf8_text lr1.2)

/-- `extract_text_from_pdf`: iterate `for i in range(START_PAGE,
total_pages)`, skip odd offsets (`(i - START_PAGE) % 2 == 1`), and
append `(i + 1, left, right)` for each processed page. -/
def extract_text_from_pdf (tess force : Bool) (doc : List V3Page) : List (Nat × Str × Str) :=
  (List.range' START_PAGE (doc.length - START_PAGE)).filterMap (fun i =>
    if (i - START_PAGE) % 2 = 1 then none
    else some (i + 1, processPage tess force (doc.getD i ⟨[], none⟩)))

/-- Regex `\w` restricted to the characters reachable after
`clean_utf8_text` (printable ASCII plus the allowed typographic set,
of which only `â` is a Unicode word character). -/
def isWordChar (c : Char) : Bool :=
  ('a' ≤ c ∧ c ≤ 'z') ∨ ('A' ≤ c ∧ c ≤ 'Z') ∨ ('0' ≤ c ∧ c ≤ '9') ∨
  c = '_' ∨ c = 'â'

/-- `re.sub(r"(\w)-\s+(\w)", r"\1\2", s)`: rejoin a word split across
a line break with a trailing hyphen. -/
def hyphenJoin : Str → Str
  | [] => []
  | a :: '-' :: rest2 =>
    if isWordChar a ∧ rest2.takeWhile pyWS ≠ [] then
      match h : rest2.dropWhile pyWS with
      | d :: rest4 =>
        if isWordChar d then a :: d :: hyphenJoin rest4
        else a :: hyphenJoin ('-' :: rest2)
      | [] => a :: hyphenJoin ('-' :: rest2)
    else a :: hyphenJoin ('-' :: rest2)
  | a :: rest => a :: hyphenJoin rest
termination_by s => s.length
decreasing_by
  · have h1 := (List.dropWhile_sublist (l := rest2) pyWS).length_le
    rw [h] at h1
    simp only [List.length_cons] at *
    omega
  · simp only [List.length_cons]; omega
  · simp only [List.length_cons]; omega
  · simp only [List.length_cons]; omega
  · simp only [List.length_cons]; omega

/-- The character set of `ln.strip("â€¢ \t")` (the bullet-strip of
ingredient lines, with the source file's literal characters). -/
def bulletStripChars : Str := "â€¢ \t".toList

/-- Regex `(?i)^(SERVES|MAKES|YIELD)` applied with `re.match`. -/
def ingHeader (ln : Str) : Bool :=
  (dropPrefixCI "serves".toList ln).isSome ∨
  (dropPrefixCI "makes".toList ln).isSome ∨
  (dropPrefixCI "yield".toList ln).isSome

/-- `re.search(r"[0-9/]", ln)`: the line contains a digit or slash. -/
def hasDigitSlash (ln : Str) : Bool :=
  ln.any (fun c => ('0' ≤ c ∧ c ≤ '9') ∨ c = '/')

/-- `re.sub(r"^\[unk\]\s*", "", ln)`: remove a stray `[unk]` bullet at
the start of the line. -/
def unkBulletStrip (ln : Str) : Str :=
  if "[unk]".toList.isPrefixOf ln then (ln.drop 5).dropWhile pyWS else ln

/-- One iteration of the ingredient-assembly loop of
`parse_recipe_text` (lines 240–248), with the accumulator kept in
reverse order: skip empty and `SERVES|MAKES|YIELD` lines; strip a
stray `[unk]` bullet; merge a line with no digit and no slash and
fewer than 3 words into the previous entry, otherwise start a new
entry. -/
def ingStep (acc : List Str) (ln0 : Str) : List Str :=
  if ln0 = [] ∨ ingHeader ln0 then acc
  else
    let ln := unkBulletStrip ln0
    match acc with
    | last :: rest =>
      if ¬ hasDigitSlash ln ∧ (pySplitWS ln).length < 3 then
        (last ++ ' ' :: ln) :: rest
      else ln :: last :: rest
    | [] => [ln]

/-- The ingredient assembly of `parse_recipe_text` (lines 237–249):
hyphenation repair, split into bullet-stripped lines, then the merge
loop. -/
def parse_recipe_ingredients (left_text : Str) : List Str :=
  let t := hyphenJoin left_text
  let left_lines := (pySplitlines t).map (stripChars bulletStripChars)
  (left_lines.foldl ingStep []).reverse

/-- The line contains an ASCII digit. -/
def hasDigit (ln : Str) : Bool := ln.any (fun c => '0' ≤ c ∧ c ≤ '9')

/-- Merge step following the claim's words verbatim ("contains no
digits and has fewer than 3 words"), for comparison with the code's
`ingStep`. -/
def ingStepClaim (acc : List Str) (ln0 : Str) : List Str :=
  if ln0 = [] ∨ ingHeader ln0 then acc
  else
    let ln := unkBulletStrip ln0
    match acc with
    | last :: rest =>
      if ¬ hasDigit ln ∧ (pySplitWS ln).length < 3 then
        (last ++ ' ' :: ln) :: rest
      else ln :: last :: rest
    | [] => [ln]

/-- The ingredient assembly as the claim describes it. -/
def parse_recipe_ingredients_claim (left_text : Str) : List Str :=
  let t := hyphenJoin left_text
  let left_lines := (pySplitlines t).map (stripChars bulletStripChars)
  (left_lines.foldl ingStepClaim []).reverse

/-- Merge step following the amended claim ("contains no digits and
no slash and has fewer than 3 words"). -/
def ingStepAmended (acc : List Str) (ln0 : Str) : List Str :=
  if ln0 = [] ∨ ingHeader ln0 then acc
  else
    let ln := unkBulletStrip ln0
    match acc with
    | last :: rest =>
      if ¬ hasDigit ln ∧ ¬ ln.contains '/' ∧ (pySplitWS ln).length < 3 then
        (last ++ ' ' :: ln) :: rest
      else ln :: last :: rest
    | [] => [ln]

/-- The ingredient assembly as the amended claim describes it. -/
def parse_recipe_ingredients_amended (left_text : Str) : List Str :=
  let t := hyphenJoin left_text
  let left_lines := (pySplitlines t).map (stripChars bulletStripChars)
  (left_lines.foldl ingStepAmended []).reverse

end V3

/-- No two adjacent whitespace characters (the invariant established
by the whitespace collapse). -/
def noAdjWS (l : Str) : Prop := l.Chain' (fun a b => ¬ (pyWS a ∧ pyWS b))

/-- Characters that survive the universal cleaner: ASCII, and never
`?` (every `?` has been rewritten to `[unk]`). -/
def cleanCharU (c : Char) : Prop := c.val ≤ 127 ∧ c ≠ '?'

/-- Characters that survive the specialized cleaner: printable ASCII,
`\n\r\t`, or the allowed typographic set. -/
def cleanCharV3 (c : Char) : Prop :=
  (32 ≤ c.val ∧ c.val ≤ 126) ∨ c ∈ V3.allowedExtra

instance (c : Char) : Decidable (cleanCharU c) := by unfold cleanCharU; infer_instance

instance (c : Char) : Decidable (cleanCharV3 c) := by unfold cleanCharV3; infer_instance

/-! ### Generic lemmas about the string machinery -/

theorem replaceAll_eq_self {pat rep s : Str} {c0 : Char}
    (hc : c0 ∈ pat) (hn : c0 ∉ s) : replaceAll pat rep s = s := by
  induction s with
  | nil => simp [replaceAll]
  | cons c cs ih =>
    rw [replaceAll]
    have hpre : ¬ (pat ≠ [] ∧ pat.isPrefixOf (c :: cs)) := by
      rintro ⟨-, hp⟩
      exact hn (( List.isPrefixOf_iff_prefix.mp hp).sublist.subset hc)
    rw [if_neg hpre]
    have : c0 ∉ cs := fun h => hn (List.mem_cons_of_mem _ h)
    rw [ih this]

theorem mem_replaceAll_single {p : Char} {rep s : Str} {c : Char}
    (h : c ∈ replaceAll [p] rep s) : c ∈ rep ∨ (c ∈ s ∧ c ≠ p) := by
  induction s with
  | nil => simp [replaceAll] at h
  | cons d ds ih =>
    rw [replaceAll] at h
    by_cases hpre : ([p] : Str) ≠ [] ∧ ([p] : Str).isPrefixOf (d :: ds)
    · rw [if_pos hpre] at h
      have hd : d = p := by
        have := hpre.2
        simp [List.isPrefixOf] at this
        exact this.symm
      simp only [List.length_cons, List.length_nil, List.drop_succ_cons, List.drop_zero] at h
      rcases List.mem_append.mp h with h1 | h2
      · exact Or.inl h1
      · rcases ih h2 with h3 | ⟨h4, h5⟩
        · exact Or.inl h3
        · exact Or.inr ⟨List.mem_cons_of_mem _ h4, h5⟩
    · rw [if_neg hpre] at h
      have hd : d ≠ p := by
        intro hdp
        exact hpre ⟨by simp, by simp [List.isPrefixOf, hdp]⟩
      rcases List.mem_cons.mp h with h1 | h2
      · exact Or.inr ⟨by simp [h1], h1 ▸ hd⟩
      · rcases ih h2 with h3 | ⟨h4, h5⟩
        · exact Or.inl h3
        · exact Or.inr ⟨List.mem_cons_of_mem _ h4, h5⟩

theorem applyTable_eq_self {tbl : List (Str × Str)} {s : Str} {P : Char → Prop}
    (hkeys : ∀ pr ∈ tbl, ∃ c ∈ pr.1, ¬ P c) (hs : ∀ c ∈ s, P c) :
    applyTable tbl s = s := by
  induction tbl with
  | nil => simp [applyTable]
  | cons pr prs ih =>
    obtain ⟨c0, hc0, hP0⟩ := hkeys pr (by simp)
    have hstep : replaceAll pr.1 pr.2 s = s :=
      replaceAll_eq_self hc0 (fun hmem => hP0 (hs c0 hmem))
    have : applyTable (pr :: prs) s = applyTable prs (replaceAll pr.1 pr.2 s) := rfl
    rw [this, hstep]
    exact ih (fun q hq => hkeys q (List.mem_cons_of_mem _ hq))

theorem head_dropWhile_not {p : Char → Bool} {l : Str} {x : Char} {xs : Str}
    (h : l.dropWhile p = x :: xs) : p x = false := by
  induction l with
  | nil => simp at h
  | cons c cs ih =>
    rw [List.dropWhile_cons] at h
    by_cases hc : p c
    · rw [if_pos hc] at h; exact ih h
    · rw [if_neg hc] at h
      cases h
      simpa using hc

theorem collapseWS_head_ws {l : Str} {c : Char}
    (h : (collapseWS l).head? = some c) (hws : pyWS c) :
    ∃ d, l.head? = some d ∧ pyWS d := by
  match l with
  | [] => simp [collapseWS] at h
  | [x] =>
    simp [collapseWS] at h
    exact ⟨x, rfl, h ▸ hws⟩
  | x :: y :: rest =>
    rw [collapseWS] at h
    by_cases hxy : pyWS x ∧ pyWS y
    · rw [if_pos hxy] at h
      exact ⟨x, rfl, hxy.1⟩
    · rw [if_neg hxy] at h
      simp only [List.head?_cons, Option.some.injEq] at h
      exact ⟨x, rfl, h ▸ hws⟩

theorem collapseWS_noAdj (l : Str) : noAdjWS (collapseWS l) := by
  induction l using collapseWS.induct with
  | case1 => simp [collapseWS, noAdjWS]
  | case2 c => simp [collapseWS, noAdjWS]
  | case3 c d rest hcd ih =>
    rw [collapseWS, if_pos hcd]
    rw [noAdjWS, List.chain'_cons']
    constructor
    · intro y hy hctr
      obtain ⟨z, hz, hzws⟩ := collapseWS_head_ws hy hctr.2
      cases hdw : rest.dropWhile pyWS with
      | nil => rw [hdw] at hz; simp at hz
      | cons a as =>
        rw [hdw] at hz
        simp only [List.head?_cons, Option.some.injEq] at hz
        have hfalse := head_dropWhile_not hdw
        rw [hz, hzws] at hfalse
        simp at hfalse
    · exact ih
  | case4 c d rest hcd ih =>
    rw [collapseWS, if_neg hcd]
    rw [noAdjWS, List.chain'_cons']
    constructor
    · intro y hy hctr
      obtain ⟨z, hz, hzws⟩ := collapseWS_head_ws hy hctr.2
      simp only [List.head?_cons, Option.some.injEq] at hz
      exact hcd ⟨hctr.1, hz ▸ hzws⟩
    · exact ih

theorem collapseWS_eq_self {l : Str} (h : noAdjWS l) : collapseWS l = l := by
  induction l using collapseWS.induct with
  | case1 => rw [collapseWS]
  | case2 c => rw [collapseWS]
  | case3 c d rest hcd ih =>
    rw [noAdjWS, List.chain'_cons] at h
    exact absurd ⟨hcd.1, hcd.2⟩ h.1
  | case4 c d rest hcd ih =>
    rw [noAdjWS, List.chain'_cons] at h
    rw [collapseWS, if_neg hcd, ih h.2]

theorem mem_collapseWS {l : Str} {c : Char} (h : c ∈ collapseWS l) :
    c ∈ l ∨ c = ' ' := by
  induction l using collapseWS.induct with
  | case1 => simp [collapseWS] at h
  | case2 x => simp [collapseWS] at h; simp [h]
  | case3 x d rest hcd ih =>
    rw [collapseWS, if_pos hcd] at h
    rcases List.mem_cons.mp h with h1 | h2
    · exact Or.inr h1
    · rcases ih h2 with h3 | h4
      · exact Or.inl (List.mem_cons_of_mem _ (List.mem_cons_of_mem _
          ((List.dropWhile_sublist pyWS).subset h3)))
      · exact Or.inr h4
  | case4 x d rest hcd ih =>
    rw [collapseWS, if_neg hcd] at h
    rcases List.mem_cons.mp h with h1 | h2
    · exact Or.inl (h1 ▸ List.mem_cons_self _ _)
    · rcases ih h2 with h3 | h4
      · exact Or.inl (List.mem_cons_of_mem _ h3)
      · exact Or.inr h4

theorem count_dropWhile_of_not {p : Char → Bool} {l : Str} {c : Char}
    (hc : p c = false) : (l.dropWhile p).count c = l.count c := by
  induction l with
  | nil => rfl
  | cons d ds ih =>
    rw [List.dropWhile_cons]
    by_cases hd : p d
    · rw [if_pos hd, ih, List.count_cons]
      have : ¬ (d = c) := fun h => by rw [h, hc] at hd; exact absurd hd (by simp)
      simp [this]
    · rw [if_neg hd]

theorem count_collapseWS {l : Str} {c : Char} (hc : pyWS c = false) :
    (collapseWS l).count c = l.count c := by
  induction l using collapseWS.induct with
  | case1 => rw [collapseWS]
  | case2 x => rw [collapseWS]
  | case3 x d rest hcd ih =>
    rw [collapseWS, if_pos hcd]
    have hxc : ¬ (x = c) := fun h => by rw [h, hc] at hcd; exact absurd hcd.1 (by simp)
    have hdc : ¬ (d = c) := fun h => by rw [h, hc] at hcd; exact absurd hcd.2 (by simp)
    have hsp : ¬ ((' ' : Char) = c) := by
      intro h
      rw [← h] at hc
      simp [pyWS] at hc
    rw [List.count_cons, List.count_cons, List.count_cons, ih]
    rw [count_dropWhile_of_not hc]
    simp [hxc, hdc, hsp]
  | case4 x d rest hcd ih =>
    rw [collapseWS, if_neg hcd, List.count_cons, List.count_cons, ih]

theorem noAdjWS_mono {l m : Str} (h : l <:+: m) (hm : noAdjWS m) : noAdjWS l :=
  List.Chain'.infix hm h

theorem pyStrip_infixOf (l : Str) : pyStrip l <:+: l := by
  obtain ⟨t1, ht1⟩ := List.dropWhile_suffix (l := l) pyWS
  obtain ⟨t2, ht2⟩ := List.dropWhile_suffix (l := (l.dropWhile pyWS).reverse) pyWS
  refine ⟨t1, t2.reverse, ?_⟩
  have hF : l.dropWhile pyWS = pyStrip l ++ t2.reverse := by
    have := congrArg List.reverse ht2
    rw [List.reverse_append] at this
    rw [← List.reverse_reverse (l.dropWhile pyWS)]
    rw [← this, pyStrip]
  rw [List.append_assoc, ← hF, ht1]

theorem stripBack_prefixOf (m : Str) : (m.reverse.dropWhile pyWS).reverse <+: m := by
  obtain ⟨t, ht⟩ := List.dropWhile_suffix (l := m.reverse) pyWS
  refine ⟨t.reverse, ?_⟩
  have := congrArg List.reverse ht
  rw [List.reverse_append, List.reverse_reverse] at this
  exact this

theorem pyStrip_idem (l : Str) : pyStrip (pyStrip l) = pyStrip l := by
  have hBB : ∀ m : Str,
      (((m.reverse.dropWhile pyWS).reverse).reverse.dropWhile pyWS).reverse
        = (m.reverse.dropWhile pyWS).reverse := by
    intro m
    rw [List.reverse_reverse, List.dropWhile_idempotent]
  have hFB : (pyStrip l).dropWhile pyWS = pyStrip l := by
    cases hB : pyStrip l with
    | nil => simp
    | cons y ys =>
      have hpre : pyStrip l <+: l.dropWhile pyWS := by
        rw [pyStrip]
        exact stripBack_prefixOf (l.dropWhile pyWS)
      obtain ⟨t, ht⟩ := hpre
      rw [hB] at ht
      have hy : pyWS y = false := head_dropWhile_not ht.symm
      rw [List.dropWhile_cons, hy]
      simp
  rw [pyStrip, hFB]
  rw [show pyStrip l = ((l.dropWhile pyWS).reverse.dropWhile pyWS).reverse from rfl]
  exact hBB (l.dropWhile pyWS)

/-! ### Invariants of the universal cleaner -/

namespace Universal

theorem mem_toAscii {s : Str} {c : Char} (h : c ∈ toAscii s) : c.val ≤ 127 := by
  rw [toAscii] at h
  obtain ⟨a, -, ha⟩ := List.mem_map.mp h
  by_cases hle : a.val ≤ 127
  · rw [if_pos hle] at ha; exact ha ▸ hle
  · rw [if_neg hle] at ha; rw [← ha]; decide

theorem mem_unkStep {s : Str} {c : Char} (h : c ∈ unkStep s) : cleanCharU c := by
  rcases mem_replaceAll_single h with h1 | ⟨h2, h3⟩
  · have h1' : c ∈ ['[', 'u', 'n', 'k', ']'] := h1
    fin_cases h1' <;> decide
  · exact ⟨mem_toAscii h2, h3⟩

theorem toAscii_eq_self {s : Str} (h : ∀ c ∈ s, c.val ≤ 127) : toAscii s = s := by
  induction s with
  | nil => rfl
  | cons a as ih =>
    rw [toAscii, List.map_cons, if_pos (h a (by simp))]
    have := ih (fun c hc => h c (List.mem_cons_of_mem _ hc))
    rw [toAscii] at this
    rw [this]

theorem unkStep_eq_self {s : Str} (h : ∀ c ∈ s, cleanCharU c) : unkStep s = s := by
  rw [unkStep, toAscii_eq_self (fun c hc => (h c hc).1)]
  exact replaceAll_eq_self (List.mem_singleton.mpr rfl) (fun hq => (h _ hq).2 rfl)

/-- The text delivered by the universal cleaner before the final
strip: collapse of the marked ASCII text. -/
theorem clean_eq_strip (s : Str) :
    clean_utf8_text s = pyStrip (collapseWS (unkStep (applyTable replacements s))) := by
  rw [clean_utf8_text]
  congr 1
  refine replaceAll_eq_self (List.mem_singleton.mpr rfl) ?_
  intro hmem
  rcases mem_collapseWS hmem with h1 | h2
  · have := (mem_unkStep h1).1
    revert this; decide
  · revert h2; decide

theorem cleanU_mem {s : Str} {c : Char} (h : c ∈ clean_utf8_text s) : cleanCharU c := by
  rw [clean_eq_strip] at h
  have h2 := (pyStrip_infixOf _).sublist.subset h
  rcases mem_collapseWS h2 with h3 | h4
  · exact mem_unkStep h3
  · rw [h4]; decide

theorem cleanU_noAdj (s : Str) : noAdjWS (clean_utf8_text s) := by
  rw [clean_eq_strip]
  exact noAdjWS_mono (pyStrip_infixOf _) (collapseWS_noAdj _)

theorem cleanU_strip (s : Str) : pyStrip (clean_utf8_text s) = clean_utf8_text s := by
  rw [clean_eq_strip]
  exact pyStrip_idem _

theorem cleanU_eq_self {t : Str} (hmem : ∀ c ∈ t, cleanCharU c)
    (hadj : noAdjWS t) (hstrip : pyStrip t = t) : clean_utf8_text t = t := by
  have h1 : applyTable replacements t = t := by
    refine applyTable_eq_self (P := cleanCharU) ?_ hmem
    decide
  have h2 : unkStep t = t := unkStep_eq_self hmem
  have h3 : collapseWS t = t := collapseWS_eq_self hadj
  have h4 : replaceAll ['•'] [] t = t :=
    replaceAll_eq_self (List.mem_singleton.mpr rfl)
      (fun hq => by have := (hmem _ hq).1; revert this; decide)
  rw [clean_utf8_text, h1, h2, h3, h4, hstrip]

theorem cleanU_idem (s : Str) :
    clean_utf8_text (clean_utf8_text s) = clean_utf8_text s :=
  cleanU_eq_self (fun _ hc => cleanU_mem hc) (cleanU_noAdj s) (cleanU_strip s)

end Universal

/-! ### Invariants of the specialized cleaner -/

namespace V3

theorem mem_charFilter {s : Str} {c : Char} (h : c ∈ charFilter s) : cleanCharV3 c := by
  rw [charFilter] at h
  obtain ⟨a, -, ha⟩ := List.mem_flatMap.mp h
  by_cases hc : (32 ≤ a.val ∧ a.val ≤ 126) ∨ a ∈ allowedExtra
  · rw [if_pos hc] at ha
    rw [List.mem_singleton.mp ha]
    exact hc
  · rw [if_neg hc] at ha
    have ha' : c ∈ ['[', 'u', 'n', 'k', ']'] := ha
    fin_cases ha' <;> decide

theorem charFilter_eq_self {s : Str} (h : ∀ c ∈ s, cleanCharV3 c) :
    charFilter s = s := by
  induction s with
  | nil => rfl
  | cons a as ih =>
    rw [charFilter, List.flatMap_cons,
      if_pos (show (32 ≤ a.val ∧ a.val ≤ 126) ∨ a ∈ allowedExtra from h a (by simp))]
    have := ih (fun c hc => h c (List.mem_cons_of_mem _ hc))
    rw [charFilter] at this
    rw [this]
    rfl

theorem cleanV3_mem {s : Str} {c : Char} (h : c ∈ clean_utf8_text s) : cleanCharV3 c := by
  rw [clean_utf8_text] at h
  have h2 := (pyStrip_infixOf _).sublist.subset h
  rcases mem_collapseWS h2 with h3 | h4
  · exact mem_charFilter h3
  · rw [h4]; decide

theorem cleanV3_noAdj (s : Str) : noAdjWS (clean_utf8_text s) := by
  rw [clean_utf8_text]
  exact noAdjWS_mono (pyStrip_infixOf _) (collapseWS_noAdj _)

theorem cleanV3_strip (s : Str) : pyStrip (clean_utf8_text s) = clean_utf8_text s := by
  rw [clean_utf8_text]
  exact pyStrip_idem _

theorem cleanV3_eq_self {t : Str} (hmem : ∀ c ∈ t, cleanCharV3 c)
    (hadj : noAdjWS t) (hstrip : pyStrip t = t) : clean_utf8_text t = t := by
  have h1 : applyTable fixes t = t := by
    refine applyTable_eq_self (P := cleanCharV3) ?_ hmem
    decide
  have h2 : charFilter t = t := charFilter_eq_self hmem
  rw [clean_utf8_text, h1, h2, collapseWS_eq_self hadj, hstrip]

theorem cleanV3_idem (s : Str) :
    clean_utf8_text (clean_utf8_text s) = clean_utf8_text s :=
  cleanV3_eq_self (fun _ hc => cleanV3_mem hc) (cleanV3_noAdj s) (cleanV3_strip s)

end V3

theorem count_pyStrip {l : Str} {c : Char} (hc : pyWS c = false) :
    (pyStrip l).count c = l.count c := by
  rw [pyStrip, List.count_reverse, count_dropWhile_of_not hc, List.count_reverse,
    count_dropWhile_of_not hc]

/-! ### The claims -/

/-- C3: text normalization is idempotent — for every input string
`s`, `normalize(normalize(s)) == normalize(s)` holds for the
`clean_utf8_text` of the universal variant and for the
`clean_utf8_text` of the publication-specific variant. -/
theorem C3_normalize_idempotent (s : Str) :
    Universal.clean_utf8_text (Universal.clean_utf8_text s) = Universal.clean_utf8_text s ∧
    V3.clean_utf8_text (V3.clean_utf8_text s) = V3.clean_utf8_text s :=
  ⟨Universal.cleanU_idem s, V3.cleanV3_idem s⟩

/-- C9: the universal normalizer emits only ASCII — every character of
`clean_utf8_text s` has code point below 128; every character above
the ASCII range surviving the mojibake table is rendered as the
visible `[unk]` marker by the marker stage (never passed through), and
no marker is dropped by the later whitespace/bullet/trim stages (the
count of `[` characters is preserved from the marker stage to the
final output). -/
theorem C9_ascii_only (s : Str) :
    (∀ c ∈ Universal.clean_utf8_text s, c.val < 128) ∧
    (∀ c : Char, 127 < c.val → Universal.unkStep [c] = "[unk]".toList) ∧
    (Universal.clean_utf8_text s).count '[' =
      (Universal.unkStep (applyTable Universal.replacements s)).count '[' := by
  refine ⟨?_, ?_, ?_⟩
  · intro c hc
    have h1 := (Universal.cleanU_mem hc).1
    have e1 : ((127 : UInt32).toBitVec).toNat = 127 := by decide
    have e2 : ((128 : UInt32).toBitVec).toNat = 128 := by decide
    simp only [UInt32.le_def, UInt32.lt_def, BitVec.le_def, BitVec.lt_def] at *
    omega
  · intro c hc
    have h1 : Universal.toAscii [c] = ['?'] := by
      have hne : ¬ (c.val ≤ 127) := by
        have e1 : ((127 : UInt32).toBitVec).toNat = 127 := by decide
        simp only [UInt32.le_def, UInt32.lt_def, BitVec.le_def, BitVec.lt_def] at *
        omega
      rw [Universal.toAscii, List.map_cons, List.map_nil, if_neg hne]
    rw [Universal.unkStep, h1]
    simp +decide [replaceAll]
  · rw [Universal.clean_eq_strip]
    rw [count_pyStrip (by decide)]
    have h2 : replaceAll ['•'] []
        (collapseWS (Universal.unkStep (applyTable Universal.replacements s)))
        = collapseWS (Universal.unkStep (applyTable Universal.replacements s)) := by
      refine replaceAll_eq_self (List.mem_singleton.mpr rfl) ?_
      intro hq
      rcases mem_collapseWS hq with h3 | h4
      · have := (Universal.mem_unkStep h3).1
        revert this; decide
      · revert h4; decide
    rw [count_collapseWS (by decide)]

/-- C9 witness: a concrete ASCII character survives with code point
below 128, and a concrete non-ASCII character (`é`) is rendered as the
`[unk]` marker. -/
theorem C9_ascii_only_witness :
    'x' ∈ Universal.clean_utf8_text "x".toList ∧
    'x'.val < 128 ∧ 127 < ('é' : Char).val ∧
    Universal.unkStep ['é'] = "[unk]".toList := by
  refine ⟨?_, ?_, by decide, (C9_ascii_only []).2.1 'é' (by decide)⟩
  · show 'x' ∈ Universal.clean_utf8_text "x".toList
    simp +decide [Universal.clean_utf8_text, Universal.unkStep, Universal.toAscii,
      applyTable, Universal.replacements, replaceAll, collapseWS, pyStrip]
  · exact (C9_ascii_only "x".toList).1 'x' (by
      simp +decide [Universal.clean_utf8_text, Universal.unkStep, Universal.toAscii,
        applyTable, Universal.replacements, replaceAll, collapseWS, pyStrip])

theorem pyStrip_eq_nil_iff {s : Str} : pyStrip s = [] ↔ ∀ c ∈ s, pyWS c := by
  constructor
  · intro h
    rw [pyStrip] at h
    have h1 : (s.dropWhile pyWS).reverse.dropWhile pyWS = [] := by
      have := congrArg List.reverse h
      rw [List.reverse_reverse] at this
      simpa using this
    have h2 := List.dropWhile_eq_nil_iff.mp h1
    cases hF : s.dropWhile pyWS with
    | nil => exact List.dropWhile_eq_nil_iff.mp hF
    | cons x xs =>
      have hx : pyWS x = false := head_dropWhile_not hF
      have : pyWS x = true := h2 x (by rw [hF]; simp)
      rw [hx] at this
      cases this
  · intro h
    rw [pyStrip, List.dropWhile_eq_nil_iff.mpr h]
    rfl

/-- C5: the garble-scoring function returns exactly 1.0 for every
empty or whitespace-only string; for every other string it returns the
fraction of its characters falling outside the allowed set (code
points 9–126, the newline/return/tab characters being allowed), a
value in `[0, 1]`. -/
theorem C5_garble_score (s : Str) :
    ((∀ c ∈ s, pyWS c) → V3.text_garble_score s = 1) ∧
    ((¬ ∀ c ∈ s, pyWS c) →
      V3.text_garble_score s = ((s.filter V3.weirdChar).length : ℚ) / (s.length : ℚ) ∧
      0 ≤ V3.text_garble_score s ∧ V3.text_garble_score s ≤ 1) := by
  constructor
  · intro h
    rw [V3.text_garble_score, if_pos (pyStrip_eq_nil_iff.mpr h)]
  · intro h
    have hne : pyStrip s ≠ [] := fun hnil => h (pyStrip_eq_nil_iff.mp hnil)
    have hs : s ≠ [] := by
      rintro rfl
      exact hne rfl
    have hlen : 1 ≤ s.length := List.length_pos.mpr hs
    have hmax : (max 1 s.length : ℕ) = s.length := by omega
    have heq : V3.text_garble_score s
        = ((s.filter V3.weirdChar).length : ℚ) / (s.length : ℚ) := by
      rw [V3.text_garble_score, if_neg hne, hmax]
    refine ⟨heq, ?_, ?_⟩
    · rw [heq]
      positivity
    · rw [heq]
      rw [div_le_one (by exact_mod_cast hlen)]
      exact_mod_cast List.length_filter_le _ _

/-- C5 witness: `"ab\x00\x00"` is neither empty nor whitespace-only;
its score is the corrupted fraction and lies in `[0, 1]`. -/
theorem C5_garble_score_witness :
    (¬ ∀ c ∈ ("ab\x00\x00".toList : Str), pyWS c) ∧
    (V3.text_garble_score "ab\x00\x00".toList
        = ((("ab\x00\x00".toList : Str).filter V3.weirdChar).length : ℚ)
            / (("ab\x00\x00".toList : Str).length : ℚ) ∧
      0 ≤ V3.text_garble_score "ab\x00\x00".toList ∧
      V3.text_garble_score "ab\x00\x00".toList ≤ 1) :=
  ⟨by decide, (C5_garble_score "ab\x00\x00".toList).2 (by decide)⟩

/-- C8: column-split stability — if every positioned word lies
strictly left of the column boundary, the right-column output is
empty, and symmetrically; for both the midpoint-boundary (universal)
and the fixed-280 boundary (specialized) extractors. -/
theorem C8_column_split_stability :
    (∀ p : Universal.Page, (∀ w ∈ p.words, w.x0 < p.width / 2) →
      (Universal.extract_text_zones p).2 = []) ∧
    (∀ p : Universal.Page, (∀ w ∈ p.words, p.width / 2 ≤ w.x0) →
      (Universal.extract_text_zones p).1 = []) ∧
    (∀ p : V3.V3Page, (∀ w ∈ p.words, w.x0 < 280) →
      (V3.extract_columns_from_page p).2 = []) ∧
    (∀ p : V3.V3Page, (∀ w ∈ p.words, (280 : ℚ) ≤ w.x0) →
      (V3.extract_columns_from_page p).1 = []) := by
  refine ⟨?_, ?_, ?_, ?_⟩
  · intro p h
    rw [Universal.extract_text_zones]
    by_cases hw : p.words = []
    · rw [if_pos hw]
    · rw [if_neg hw]
      have hf : p.words.filter (fun w => p.width / 2 ≤ w.x0) = [] :=
        List.filter_eq_nil_iff.mpr (fun w hw2 => by
          simp only [decide_eq_true_eq]
          exact not_le.mpr (h w hw2))
      simp [hf, List.intercalate]
  · intro p h
    rw [Universal.extract_text_zones]
    by_cases hw : p.words = []
    · rw [if_pos hw]
    · rw [if_neg hw]
      have hf : p.words.filter (fun w => w.x0 < p.width / 2) = [] :=
        List.filter_eq_nil_iff.mpr (fun w hw2 => by
          simp only [decide_eq_true_eq]
          exact not_lt.mpr (h w hw2))
      simp [hf, List.intercalate]
  · intro p h
    rw [V3.extract_columns_from_page]
    by_cases hw : p.words = []
    · rw [if_pos hw]
    · rw [if_neg hw]
      have hf : p.words.filter (fun w => (280 : ℚ) ≤ w.x0) = [] :=
        List.filter_eq_nil_iff.mpr (fun w hw2 => by
          simp only [decide_eq_true_eq]
          exact not_le.mpr (h w hw2))
      simp [hf, V3.join_column, sortQ, List.intercalate]
  · intro p h
    rw [V3.extract_columns_from_page]
    by_cases hw : p.words = []
    · rw [if_pos hw]
    · rw [if_neg hw]
      have hf : p.words.filter (fun w => w.x0 < 280) = [] :=
        List.filter_eq_nil_iff.mpr (fun w hw2 => by
          simp only [decide_eq_true_eq]
          exact not_lt.mpr (h w hw2))
      simp [hf, V3.join_column, sortQ, List.intercalate]

/-- C8 witness: one-word pages entirely left (respectively right) of
each boundary produce an empty opposite column. -/
theorem C8_column_split_stability_witness :
    (∀ w ∈ (⟨100, [⟨"a".toList, 10⟩], [], none⟩ : Universal.Page).words,
        w.x0 < (⟨100, [⟨"a".toList, 10⟩], [], none⟩ : Universal.Page).width / 2) ∧
    (Universal.extract_text_zones ⟨100, [⟨"a".toList, 10⟩], [], none⟩).2 = [] ∧
    (∀ w ∈ (⟨[⟨"b".toList, 300, 0⟩], none⟩ : V3.V3Page).words, (280 : ℚ) ≤ w.x0) ∧
    (V3.extract_columns_from_page ⟨[⟨"b".toList, 300, 0⟩], none⟩).1 = [] := by
  have h1 : ∀ w ∈ (⟨100, [⟨"a".toList, 10⟩], [], none⟩ : Universal.Page).words,
      w.x0 < (⟨100, [⟨"a".toList, 10⟩], [], none⟩ : Universal.Page).width / 2 := by
    intro w hw
    simp only [List.mem_singleton] at hw
    rw [hw]
    norm_num
  have h2 : ∀ w ∈ (⟨[⟨"b".toList, 300, 0⟩], none⟩ : V3.V3Page).words, (280 : ℚ) ≤ w.x0 := by
    intro w hw
    simp only [List.mem_singleton] at hw
    rw [hw]
    norm_num
  exact ⟨h1, C8_column_split_stability.1 _ h1, h2, C8_column_split_stability.2.2.2 _ h2⟩

theorem filterMap_ite_eq_filter_map {α β : Type} (l : List α)
    (Q : α → Prop) [DecidablePred Q] (f : α → β) :
    l.filterMap (fun a => if Q a then none else some (f a)) =
      (l.filter (fun a => ¬ Q a)).map f := by
  induction l with
  | nil => rfl
  | cons a as ih =>
    rw [List.filterMap_cons, List.filter_cons]
    by_cases hq : Q a
    · rw [if_pos hq]
      have : (decide ¬ Q a) = false := by simp [hq]
      rw [this]
      simpa using ih
    · rw [if_neg hq]
      have : (decide ¬ Q a) = true := by simp [hq]
      rw [this]
      simp only [if_true]
      rw [List.map_cons, ih]

/-- The page-selection behaviour of `extract_text_from_pdf`: one
entry per 0-based index `i` with `START_PAGE ≤ i < total` and
`(i - START_PAGE)` even, in increasing order, carrying page number
`i + 1` and the processed page. -/
theorem V3.extract_eq_filter_map (tess force : Bool) (doc : List V3.V3Page) :
    V3.extract_text_from_pdf tess force doc =
      ((List.range doc.length).filter
          (fun i => decide (V3.START_PAGE ≤ i) && decide ((i - V3.START_PAGE) % 2 = 0))).map
        (fun i => (i + 1, V3.processPage tess force (doc.getD i ⟨[], none⟩))) := by
  rw [V3.extract_text_from_pdf]
  rw [filterMap_ite_eq_filter_map]
  by_cases hn : V3.START_PAGE ≤ doc.length
  · have hsplit : List.range doc.length
        = List.range' 0 V3.START_PAGE ++ List.range' V3.START_PAGE (doc.length - V3.START_PAGE) := by
      rw [List.range_eq_range']
      have happ := List.range'_append 0 V3.START_PAGE (doc.length - V3.START_PAGE) 1
      simp only [Nat.one_mul, Nat.zero_add] at happ
      conv_lhs => rw [show doc.length = doc.length - V3.START_PAGE + V3.START_PAGE from by omega]
      rw [← happ]
    rw [hsplit, List.filter_append]
    have h1 : (List.range' 0 V3.START_PAGE).filter
        (fun i => decide (V3.START_PAGE ≤ i) && decide ((i - V3.START_PAGE) % 2 = 0)) = [] := by
      refine List.filter_eq_nil_iff.mpr ?_
      intro i hi
      have := List.mem_range'.mp hi
      have hlt : i < V3.START_PAGE := by omega
      simp only [Bool.and_eq_true, decide_eq_true_eq]
      rintro ⟨hle, -⟩
      omega
    rw [h1, List.nil_append]
    have h2 : (List.range' V3.START_PAGE (doc.length - V3.START_PAGE)).filter
          (fun i => decide (V3.START_PAGE ≤ i) && decide ((i - V3.START_PAGE) % 2 = 0))
        = (List.range' V3.START_PAGE (doc.length - V3.START_PAGE)).filter
          (fun i => ¬ ((i - V3.START_PAGE) % 2 = 1)) := by
      refine List.filter_congr ?_
      intro i hi
      have hm := List.mem_range'.mp hi
      have hle : V3.START_PAGE ≤ i := by omega
      have hd1 : decide (V3.START_PAGE ≤ i) = true := by simp [hle]
      rw [hd1, Bool.true_and]
      rcases Nat.mod_two_eq_zero_or_one (i - V3.START_PAGE) with he | he
      · simp [he]
      · simp [he]
    rw [h2]
  · have hz : doc.length - V3.START_PAGE = 0 := by omega
    rw [hz]
    have h1 : (List.range doc.length).filter
        (fun i => decide (V3.START_PAGE ≤ i) && decide ((i - V3.START_PAGE) % 2 = 0)) = [] := by
      refine List.filter_eq_nil_iff.mpr ?_
      intro i hi
      have := List.mem_range.mp hi
      simp only [Bool.and_eq_true, decide_eq_true_eq]
      rintro ⟨hle, -⟩
      omega
    rw [h1]
    rfl

/-- C10: the publication-specific extractor processes exactly every
second page starting at `START_PAGE = 6` — it emits one
`(page_number, left, right)` entry for exactly the 0-based indices
`i` with `START_PAGE ≤ i < total_pages` and `(i - START_PAGE)` even,
in strictly increasing page order, reporting the 1-based number
`i + 1`; all other pages yield no entry. -/
theorem C10_every_second_page (tess force : Bool) (doc : List V3.V3Page) :
    V3.extract_text_from_pdf tess force doc =
      ((List.range doc.length).filter
          (fun i => decide (V3.START_PAGE ≤ i) && decide ((i - V3.START_PAGE) % 2 = 0))).map
        (fun i => (i + 1, V3.processPage tess force (doc.getD i ⟨[], none⟩))) :=
  V3.extract_eq_filter_map tess force doc

theorem V3.processPage_tess_irrel {p : V3.V3Page} (hocr : p.ocr = none)
    (force : Bool) :
    V3.processPage true force p = V3.processPage false force p := by
  rw [V3.processPage, V3.processPage, hocr]
  split
  · rfl
  · rfl

/-- C6: recognition-engine failure is recoverable and non-fatal — in
the universal variant a page whose OCR call raises yields exactly the
pre-fallback extraction result (text and confidence unchanged), and in
the specialized variant a whole run in which every OCR call raises
produces the same page list as a run with OCR unavailable, so every
page (and every subsequent page) is still processed. -/
theorem C6_ocr_failure_recoverable :
    (∀ p : Universal.Page, p.ocr = none →
      Universal.extract_best_text true p = Universal.extract_best_text false p) ∧
    (∀ (force : Bool) (doc : List V3.V3Page), (∀ p ∈ doc, p.ocr = none) →
      V3.extract_text_from_pdf true force doc = V3.extract_text_from_pdf false force doc) := by
  constructor
  · intro p hocr
    rw [Universal.extract_best_text, Universal.extract_best_text, hocr]
    simp [ite_self]
  · intro force doc hdoc
    rw [V3.extract_eq_filter_map, V3.extract_eq_filter_map]
    refine List.map_congr_left ?_
    intro i hi
    have hocr : (doc.getD i ⟨[], none⟩).ocr = none := by
      rw [List.getD_eq_getElem?_getD]
      cases hg : doc[i]? with
      | none => rfl
      | some q => exact hdoc q (List.getElem?_mem hg)
    rw [V3.processPage_tess_irrel hocr]

/-- C6 witness: a concrete page with a raised OCR call, and a
one-page document whose only OCR call raises. -/
theorem C6_ocr_failure_recoverable_witness :
    ((⟨100, [⟨"a".toList, 10⟩], "a".toList, none⟩ : Universal.Page).ocr = none ∧
      Universal.extract_best_text true ⟨100, [⟨"a".toList, 10⟩], "a".toList, none⟩
        = Universal.extract_best_text false ⟨100, [⟨"a".toList, 10⟩], "a".toList, none⟩) ∧
    ((∀ p ∈ (List.replicate 7 (⟨[⟨"b".toList, 10, 5⟩], none⟩ : V3.V3Page)), p.ocr = none) ∧
      V3.extract_text_from_pdf true true (List.replicate 7 ⟨[⟨"b".toList, 10, 5⟩], none⟩)
        = V3.extract_text_from_pdf false true (List.replicate 7 ⟨[⟨"b".toList, 10, 5⟩], none⟩)) := by
  have h1 : (⟨100, [⟨"a".toList, 10⟩], "a".toList, none⟩ : Universal.Page).ocr = none := rfl
  have h2 : ∀ p ∈ (List.replicate 7 (⟨[⟨"b".toList, 10, 5⟩], none⟩ : V3.V3Page)), p.ocr = none := by
    intro p hp
    rw [List.eq_of_mem_replicate hp]
  exact ⟨⟨h1, C6_ocr_failure_recoverable.1 _ h1⟩, ⟨h2, C6_ocr_failure_recoverable.2 true _ h2⟩⟩

theorem V3.hasDigitSlash_eq (ln : Str) :
    V3.hasDigitSlash ln = (V3.hasDigit ln || ln.contains '/') := by
  induction ln with
  | nil => rfl
  | cons c cs ih =>
    simp only [V3.hasDigitSlash, V3.hasDigit, List.any_cons, List.contains_cons] at *
    rw [ih]
    by_cases hd : ('0' ≤ c ∧ c ≤ '9')
    · simp [hd]
    · by_cases hs : c = '/'
      · simp [hs]
      · have h1 : (decide (('0' ≤ c ∧ c ≤ '9') ∨ c = '/')) = false := by
          simp [hd, hs]
        have h2 : (decide ('0' ≤ c ∧ c ≤ '9')) = false := by simp [hd]
        have h3 : ('/' == c) = false := by
          simp only [beq_eq_false_iff_ne, ne_eq]
          exact fun h => hs h.symm
        rw [h1, h2, h3]
        simp [Bool.or_assoc, Bool.or_comm]

theorem V3.ingStep_eq_amended : V3.ingStep = V3.ingStepAmended := by
  funext acc ln0
  simp only [V3.ingStep, V3.ingStepAmended]
  by_cases h1 : ln0 = [] ∨ V3.ingHeader ln0
  · rw [if_pos h1, if_pos h1]
  · rw [if_neg h1, if_neg h1]
    cases acc with
    | nil => rfl
    | cons last rest =>
      have hiff : (¬ V3.hasDigitSlash (V3.unkBulletStrip ln0) ∧
            (pySplitWS (V3.unkBulletStrip ln0)).length < 3) ↔
          (¬ V3.hasDigit (V3.unkBulletStrip ln0) ∧
            ¬ (V3.unkBulletStrip ln0).contains '/' ∧
            (pySplitWS (V3.unkBulletStrip ln0)).length < 3) := by
        rw [V3.hasDigitSlash_eq]
        simp only [Bool.or_eq_true, not_or]
        tauto
      exact if_congr hiff rfl rfl

/-- C7 (amended): in the two-column parser's ingredient assembly, a
non-empty non-header line is merged into the previous entry exactly
when it contains no digits, no slash, and fewer than 3 words — for
every left-column text the code agrees with this description; and the
claim's own example left column `"SERVES 4 / 2 tbsp / soy sauce"`
yields `["2 tbsp soy sauce"]`. -/
theorem C7_ingredient_merge_amended :
    (∀ left : Str, V3.parse_recipe_ingredients left
        = V3.parse_recipe_ingredients_amended left) ∧
    V3.parse_recipe_ingredients "SERVES 4\n2 tbsp\nsoy sauce".toList
      = ["2 tbsp soy sauce".toList] := by
  constructor
  · intro left
    rw [V3.parse_recipe_ingredients, V3.parse_recipe_ingredients_amended,
      V3.ingStep_eq_amended]
  · simp +decide [V3.parse_recipe_ingredients, V3.hyphenJoin, pySplitlines,
      splitlinesGo, stripChars, V3.bulletStripChars, V3.ingStep, V3.ingHeader,
      dropPrefixCI, asciiLower, V3.unkBulletStrip, V3.hasDigitSlash, pySplitWS, pyStrip]

/-- C7 counterexample: on the left column `"2 tbsp\nor/so"` the code
starts a new entry for `"or/so"` (it contains a slash), while the
claim as stated — merge whenever the line has no digits and fewer
than 3 words — demands merging it into `"2 tbsp"`. -/
theorem C7_ingredient_merge_counterexample :
    V3.parse_recipe_ingredients "2 tbsp\nor/so".toList
        = ["2 tbsp".toList, "or/so".toList] ∧
    V3.parse_recipe_ingredients_claim "2 tbsp\nor/so".toList
        = ["2 tbsp or/so".toList] := by
  constructor
  · simp +decide [V3.parse_recipe_ingredients, V3.hyphenJoin, pySplitlines,
      splitlinesGo, stripChars, V3.bulletStripChars, V3.ingStep, V3.ingHeader,
      dropPrefixCI, asciiLower, V3.unkBulletStrip, V3.hasDigitSlash, pySplitWS, pyStrip]
  · simp +decide [V3.parse_recipe_ingredients_claim, V3.hyphenJoin, pySplitlines,
      splitlinesGo, stripChars, V3.bulletStripChars, V3.ingStepClaim, V3.ingHeader,
      dropPrefixCI, asciiLower, V3.unkBulletStrip, V3.hasDigit, pySplitWS, pyStrip]

/-- C4 (amended): in the single-stream parser, when the first line
matching the "Ingredients" header pattern is NOT the very first
non-empty line (Python's `if ing_idx:` treats index 0 like `None`) and
the first line matching the "Directions/Instructions" pattern lies at
least two positions later (so the in-between region is non-empty),
the record's ingredients are exactly the non-empty lines strictly
between the two headers, each passed through the normalizer, and the
directions are the lines after the directions header joined by single
spaces. -/
theorem C4_single_stream_amended (txt fname : Str) (n : Nat) (i d : Nat)
    (hing : (((pySplitlines txt).map pyStrip).filter (fun l => l ≠ [])).findIdx?
        Universal.matchIngHeader = some i)
    (hi : 1 ≤ i)
    (hdir : (((pySplitlines txt).map pyStrip).filter (fun l => l ≠ [])).findIdx?
        Universal.matchDirHeader = some d)
    (hd : i + 1 < d) :
    (Universal.parse_recipe_text txt fname n).ingredients
        = (((((pySplitlines txt).map pyStrip).filter (fun l => l ≠ [])).drop (i + 1)).take
            (d - (i + 1))).map Universal.clean_utf8_text ∧
    (Universal.parse_recipe_text txt fname n).directions
        = List.intercalate [' ']
            ((((pySplitlines txt).map pyStrip).filter (fun l => l ≠ [])).drop (d + 1)) := by
  have hine : i ≠ 0 := by omega
  have hdne : d ≠ 0 := by omega
  have hdlt : d < (((pySplitlines txt).map pyStrip).filter (fun l => l ≠ [])).length :=
    (List.findIdx?_eq_some_iff_findIdx_eq.mp hdir).1
  have hslice : ((((pySplitlines txt).map pyStrip).filter (fun l => l ≠ [])).drop (i + 1)).take
      (d - (i + 1)) ≠ [] := by
    intro hnil
    have hlen := congrArg List.length hnil
    simp only [List.length_take, List.length_drop, List.length_nil] at hlen
    omega
  constructor
  · simp only [Universal.parse_recipe_text, hing, hdir, if_pos hine, if_pos hdne]
    rw [if_neg]
    rintro ⟨h1, -⟩
    exact hslice (List.map_eq_nil_iff.mp h1)
  · simp only [Universal.parse_recipe_text, hing, hdir, if_pos hine, if_pos hdne]

/-- C4 witness: the specification's own scenario — title line
`"Pancakes"` above the headers — satisfies the amended hypotheses and
yields `ingredients = ["2 eggs", "1 cup flour"]` (normalized) and
`directions = "Mix eggs and flour."`. -/
theorem C4_single_stream_amended_witness :
    ((((pySplitlines "Pancakes\nIngredients:\n2 eggs\n1 cup flour\nDirections:\nMix eggs and flour.".toList).map
          pyStrip).filter (fun l => l ≠ [])).findIdx? Universal.matchIngHeader = some 1) ∧
    ((((pySplitlines "Pancakes\nIngredients:\n2 eggs\n1 cup flour\nDirections:\nMix eggs and flour.".toList).map
          pyStrip).filter (fun l => l ≠ [])).findIdx? Universal.matchDirHeader = some 4) ∧
    ((Universal.parse_recipe_text
          "Pancakes\nIngredients:\n2 eggs\n1 cup flour\nDirections:\nMix eggs and flour.".toList
          "f.pdf".toList 1).ingredients
        = (((((pySplitlines "Pancakes\nIngredients:\n2 eggs\n1 cup flour\nDirections:\nMix eggs and flour.".toList).map
              pyStrip).filter (fun l => l ≠ [])).drop 2).take 2).map Universal.clean_utf8_text ∧
      (Universal.parse_recipe_text
          "Pancakes\nIngredients:\n2 eggs\n1 cup flour\nDirections:\nMix eggs and flour.".toList
          "f.pdf".toList 1).directions
        = List.intercalate [' ']
            ((((pySplitlines "Pancakes\nIngredients:\n2 eggs\n1 cup flour\nDirections:\nMix eggs and flour.".toList).map
                pyStrip).filter (fun l => l ≠ [])).drop 5)) :=
  ⟨by decide, by decide,
    C4_single_stream_amended _ _ 1 1 4 (by decide) (by decide) (by decide) (by decide)⟩

/-- C4 counterexample: when the ingredients header is the very first
line (`ing_idx = 0`, falsy in Python), the claim as stated demands
`ingredients = ["2 eggs", "1 cup flour"]`, but the code takes the
naive fallback and returns the four lines after the title slot,
including the directions header itself. -/
theorem C4_single_stream_counterexample :
    ((((pySplitlines "INGREDIENTS:\n2 eggs\n1 cup flour\nDIRECTIONS:\nMix eggs and flour.".toList).map
          pyStrip).filter (fun l => l ≠ [])).findIdx? Universal.matchIngHeader = some 0) ∧
    ((((pySplitlines "INGREDIENTS:\n2 eggs\n1 cup flour\nDIRECTIONS:\nMix eggs and flour.".toList).map
          pyStrip).filter (fun l => l ≠ [])).findIdx? Universal.matchDirHeader = some 3) ∧
    (Universal.parse_recipe_text
          "INGREDIENTS:\n2 eggs\n1 cup flour\nDIRECTIONS:\nMix eggs and flour.".toList
          "f.pdf".toList 1).ingredients
        = ["2 eggs".toList, "1 cup flour".toList, "DIRECTIONS:".toList,
            "Mix eggs and flour.".toList] ∧
    (Universal.parse_recipe_text
          "INGREDIENTS:\n2 eggs\n1 cup flour\nDIRECTIONS:\nMix eggs and flour.".toList
          "f.pdf".toList 1).ingredients
        ≠ ["2 eggs".toList, "1 cup flour".toList] := by
  refine ⟨by decide, by decide, ?_, ?_⟩
  · simp +decide [Universal.parse_recipe_text, pySplitlines, splitlinesGo, pyStrip,
      Universal.matchIngHeader, Universal.matchDirHeader, dropPrefixCI, asciiLower]
  · simp +decide [Universal.parse_recipe_text, pySplitlines, splitlinesGo, pyStrip,
      Universal.matchIngHeader, Universal.matchDirHeader, dropPrefixCI, asciiLower]

/-- C2 counterexample: a page with zero positioned words (and no text
layer) CAN yield a RecipeRecord in the universal variant — the OCR
fallback fires on the empty extraction and recovers text, and `main`
then builds and keeps a record for the page. -/
theorem C2_empty_page_counterexample :
    (⟨100, [], [],
        some "Pancakes\nIngredients:\n2 eggs\nDirections:\nMix.".toList⟩ : Universal.Page).words
        = [] ∧
    Universal.processPage
        ⟨100, [], [], some "Pancakes\nIngredients:\n2 eggs\nDirections:\nMix.".toList⟩
        "f.pdf".toList 0 ≠ none := by
  refine ⟨rfl, ?_⟩
  simp +decide [Universal.processPage, Universal.extract_best_text,
    Universal.extract_text_zones, Universal.clean_utf8_text, Universal.unkStep,
    Universal.toAscii, applyTable, Universal.replacements, replaceAll, collapseWS,
    pyStrip, Universal.text_is_garbled, Universal.USE_OCR_FALLBACK]

/-- C2 (amended): in the universal variant a page with zero positioned
words, no text layer and no recovered OCR text yields no RecipeRecord
(not even a placeholder); if the OCR fallback recovers non-empty text,
a record IS produced (see the counterexample).  In the
publication-specific variant, every selected page contributes exactly
one extraction entry — empty or not — and `main` unconditionally
builds one record per entry, so empty pages yield placeholder
records. -/
theorem C2_empty_page_amended :
    (∀ (p : Universal.Page) (fname : Str) (k : Nat),
      p.words = [] → p.fullText = [] → p.ocr = none →
      Universal.processPage p fname k = none) ∧
    (∀ (tess force : Bool) (doc : List V3.V3Page),
      (V3.extract_text_from_pdf tess force doc).length
        = ((List.range doc.length).filter
            (fun i => decide (V3.START_PAGE ≤ i) && decide ((i - V3.START_PAGE) % 2 = 0))).length) := by
  constructor
  · intro p fname k hw hf ho
    obtain ⟨wd, ws, ft, oc⟩ := p
    simp only at hw hf ho
    subst hw hf ho
    simp +decide [Universal.processPage, Universal.extract_best_text,
      Universal.extract_text_zones, Universal.clean_utf8_text, Universal.unkStep,
      Universal.toAscii, applyTable, Universal.replacements, replaceAll, collapseWS,
      pyStrip, Universal.text_is_garbled, Universal.USE_OCR_FALLBACK]
  · intro tess force doc
    rw [V3.extract_eq_filter_map]
    rw [List.length_map]

/-- C2 witness: a concrete wordless page with failing OCR yields no
record, and a concrete 7-page document of empty pages still emits one
extraction entry (for 0-based page 6). -/
theorem C2_empty_page_amended_witness :
    ((⟨100, [], [], none⟩ : Universal.Page).words = [] ∧
      Universal.processPage ⟨100, [], [], none⟩ "f.pdf".toList 0 = none) ∧
    (V3.extract_text_from_pdf false false
        (List.replicate 7 (⟨[], none⟩ : V3.V3Page))).length
      = ((List.range (List.replicate 7 (⟨[], none⟩ : V3.V3Page)).length).filter
          (fun i => decide (V3.START_PAGE ≤ i) && decide ((i - V3.START_PAGE) % 2 = 0))).length :=
  ⟨⟨rfl, C2_empty_page_amended.1 ⟨100, [], [], none⟩ "f.pdf".toList 0 rfl rfl rfl⟩,
    C2_empty_page_amended.2 false false _⟩

/-- C1 (code bug): routing is NOT a total partition.  On a one-page
document whose page text is short/garbled (confidence 0.3 < 0.45), a
RecipeRecord is produced, but `main` appends only records with
`conf >= CONF_THRESHOLD` to `recipes`, and `export_review` selects
low-confidence rows from that same accepted list — so the record lands
in neither the accepted set nor the review set, contradicting the
claim (and the module docstring "Otherwise logs to review queue"). -/
theorem C1_routing_loses_low_confidence :
    (Universal.produced_records [⟨100, [⟨"hi".toList, 10⟩], "hi".toList, none⟩]
        "f.pdf".toList).map Universal.Recipe.confidence = [(0.3 : ℚ)] ∧
    Universal.main_recipes [⟨100, [⟨"hi".toList, 10⟩], "hi".toList, none⟩]
        "f.pdf".toList = [] ∧
    Universal.export_review
        (Universal.main_recipes [⟨100, [⟨"hi".toList, 10⟩], "hi".toList, none⟩]
          "f.pdf".toList) = [] := by
  have hlt : ((10 : ℚ) < 100 / 2) := by norm_num
  have hle : ¬ ((100 : ℚ) / 2 ≤ 10) := by norm_num
  have hc1 : ((0.5 : ℚ) - 0.2 < 0.4) := by norm_num
  have hconf : min (max ((0.5 : ℚ) - 0.2) 0) 1 = (0.3 : ℚ) := by norm_num
  have hacc : ¬ (Universal.CONF_THRESHOLD ≤ (0.3 : ℚ)) := by
    rw [Universal.CONF_THRESHOLD]
    norm_num
  have hb : Universal.extract_best_text Universal.USE_OCR_FALLBACK
      ⟨100, [⟨"hi".toList, 10⟩], "hi".toList, none⟩ = ("hi".toList, (0.3 : ℚ)) := by
    simp +decide [Universal.extract_best_text, Universal.extract_text_zones,
      Universal.clean_utf8_text, Universal.unkStep, Universal.toAscii, applyTable,
      Universal.replacements, replaceAll, collapseWS, pyStrip, List.intercalate,
      List.intersperse, Universal.text_is_garbled, Universal.USE_OCR_FALLBACK,
      hlt, hle, hc1, hconf]
  have hp1 : Universal.processPage ⟨100, [⟨"hi".toList, 10⟩], "hi".toList, none⟩
      "f.pdf".toList 0
      = some { Universal.parse_recipe_text "hi".toList "f.pdf".toList 1 with
                confidence := (0.3 : ℚ) } := by
    rw [Universal.processPage, hb]
    rw [if_neg (by decide)]
  refine ⟨?_, ?_, ?_⟩
  · rw [Universal.produced_records]
    rw [show (([⟨100, [⟨"hi".toList, 10⟩], "hi".toList, none⟩] : List Universal.Page).take
        Universal.MAX_PAGES).enum
      = [(0, (⟨100, [⟨"hi".toList, 10⟩], "hi".toList, none⟩ : Universal.Page))] from rfl]
    rw [List.filterMap_cons, List.filterMap_nil]
    simp only [hp1]
    rfl
  · rw [Universal.main_recipes]
    rw [show (([⟨100, [⟨"hi".toList, 10⟩], "hi".toList, none⟩] : List Universal.Page).take
        Universal.MAX_PAGES).enum
      = [(0, (⟨100, [⟨"hi".toList, 10⟩], "hi".toList, none⟩ : Universal.Page))] from rfl]
    rw [List.filterMap_cons, List.filterMap_nil]
    simp only [hp1]
    rw [if_neg hacc]
  · rw [Universal.main_recipes]
    rw [show (([⟨100, [⟨"hi".toList, 10⟩], "hi".toList, none⟩] : List Universal.Page).take
        Universal.MAX_PAGES).enum
      = [(0, (⟨100, [⟨"hi".toList, 10⟩], "hi".toList, none⟩ : Universal.Page))] from rfl]
    rw [List.filterMap_cons, List.filterMap_nil]
    simp only [hp1]
    rw [if_neg hacc]
    rfl
